import Mathlib

/-!
Verification of the Node-Pilot-Backend workflow compiler.

The definitions below are a shallow embedding of the TypeScript sources:

* `src/types/workflow.ts`           — the data model (`Workflows`, `Workflow`,
  `Properties`, `Relation`, `ValidationRule`).  Field-type tags are embedded
  as plain strings, matching the source's open union `FieldType = ... | (string & {})`.
* `src/utils/helpers.ts`            — `capitalize`, `validateEntityName`,
  `validatePropertyName`, `validateRelationships`, `mapFieldType`, `mapZodType`.
* `src/middleware/validation.ts`    — the request validator
  (`validateWorkflowRequest`) with its zod schema `WorkflowsSchema`.
* `src/generators/prisma-schema.generator.ts` — `mapToPrismaType` and
  the per-model emission of `generateSchemaPrisma` (whose loop, at
  runtime, throws on the stale `w.controllers.name` before emitting
  anything; see that section's comment).
* `src/generators/type.generator.ts`          — `generateType`.
* `src/services/workflow.service.ts` and
  `src/controllers/workflow.controller.ts`    — the orchestration pipeline,
  modelled as the pure function `compile` from a request to either the
  ordered validation-error list or the produced artifact set.

Functions whose results the middleware consumes as `{ isValid, errors }`
are embedded as the plain error list; `isValid` is `errors.isEmpty` in the
source, so nothing is lost.  JS `Set`/`Map` values are embedded as
insertion-ordered duplicate-free lists, preserving iteration order.
JS numbers that the source only compares and prints are embedded as `Int`.
-/

set_option maxHeartbeats 1000000
set_option maxRecDepth 8192

namespace NodePilot

/-- `Relation` from `src/types/workflow.ts`: cardinality tag of a relation. -/
inductive Cardinality where
  | oneToOne
  | oneToMany
  | manyToMany
deriving DecidableEq

/-- `Relation` from `src/types/workflow.ts`.  `controller` is the target
entity name (the source's field name is kept). -/
structure Relation where
  relation : Cardinality
  isParent : Bool
  controller : String
deriving DecidableEq

/-- `ValidationRule` from `src/types/workflow.ts`: a closed tagged union. -/
inductive ValidationRule where
  | minLength (value : Int)
  | maxLength (value : Int)
  | pattern (value : String)
  | min (value : Int)
  | max (value : Int)
  | email
  | url
  | uuid
  | enum (values : List String)
  | startsWith (value : String)
  | endsWith (value : String)
  | custom (validator : String)
deriving DecidableEq

/-- `Properties` from `src/types/workflow.ts`.  The `type` tag is an open
string union in the source and is embedded as `String`. -/
structure Properties where
  name : String
  type : String
  nullable : Bool
  validation : Option (List ValidationRule)
deriving DecidableEq

/-- `Workflow` (one entity) from `src/types/workflow.ts`.  The UI-only
layout metadata (`cardId`, `dimensions`, `position`) never reaches any
generator or validation check and is omitted. -/
structure Workflow where
  name : String
  props : Option (List Properties)
  relations : Option (List Relation)
deriving DecidableEq

/-- `Workflows` (the compilation unit) from `src/types/workflow.ts`.
`cors` and the optional feature block are opaque pass-through values for
the core (spec §3) and are omitted. -/
structure Workflows where
  id : String
  name : String
  workflows : List Workflow
deriving DecidableEq

/-! ## Naming & type-mapping engine (`src/utils/helpers.ts`) -/

/-- `capitalize` from `src/utils/helpers.ts`:
`str.charAt(0).toUpperCase() + str.slice(1)`. -/
def capitalize (s : String) : String :=
  match s.data with
  | [] => ""
  | c :: cs => String.mk (c.toUpper :: cs)

/-- JS `String.prototype.toLowerCase`, embedded at the character-list
level (the core recursion behind `String.toLower` does not reduce inside
the kernel; for the ASCII identifiers involved the two agree). -/
def jsToLower (s : String) : String :=
  String.mk (s.data.map Char.toLower)

/-- JS `String.prototype.trim`, embedded at the character-list level. -/
def jsTrim (s : String) : String :=
  String.mk (((s.data.dropWhile Char.isWhitespace).reverse.dropWhile Char.isWhitespace).reverse)

def leadsWith : List Char → List Char → Bool
  | [], _ => true
  | _ :: _, [] => false
  | a :: as, b :: bs => a = b && leadsWith as bs

/-- JS `String.prototype.endsWith`, embedded at the character-list level. -/
def strEndsWith (s t : String) : Bool :=
  leadsWith t.data.reverse s.data.reverse

def isVowel (c : Char) : Bool :=
  c = 'a' ∨ c = 'e' ∨ c = 'i' ∨ c = 'o' ∨ c = 'u' ∨
  c = 'A' ∨ c = 'E' ∨ c = 'I' ∨ c = 'O' ∨ c = 'U'

/-- Modelled from the spec: `pluralize` "delegates to a standard English
pluralization algorithm" (the external npm package `pluralize`, which is
not part of this repository).  Standard rules: sibilant endings take
`es`, a consonant followed by `y` becomes `ies`, everything else takes
`s`. -/
def pluralize (s : String) : String :=
  if strEndsWith s "s" ∨ strEndsWith s "x" ∨ strEndsWith s "z" ∨
      strEndsWith s "ch" ∨ strEndsWith s "sh" then
    s ++ "es"
  else
    match s.data.getLast?, s.data.dropLast.getLast? with
    | some 'y', some c =>
      if isVowel c then s ++ "s" else String.mk (s.data.dropLast ++ ['i', 'e', 's'])
    | _, _ => s ++ "s"

/-- `mapFieldType` from `src/utils/helpers.ts`: FieldType tag to runtime
(TypeScript) type expression. -/
def mapFieldType (t : String) : String :=
  if t = "string" ∨ t = "number" ∨ t = "boolean" ∨ t = "bigint" ∨ t = "symbol" ∨
      t = "undefined" ∨ t = "null" ∨ t = "any" ∨ t = "unknown" ∨ t = "void" ∨
      t = "never" then t
  else if t = "object" then "Record<string, any>"
  else if t = "array" then "any[]"
  else if t = "function" then "(...args: any[]) => any"
  else if t = "date" then "Date"
  else if t = "json" then "Record<string, any>"
  else t

/-- `mapToPrismaType` from `src/generators/prisma-schema.generator.ts`:
a `switch (type.toLowerCase())` with a `String` fallback. -/
def mapToPrismaType (t : String) : String :=
  let l := jsToLower t
  if l = "string" then "String"
  else if l = "number" then "Int"
  else if l = "float" then "Float"
  else if l = "boolean" then "Boolean"
  else if l = "datetime" then "DateTime"
  else if l = "date" then "DateTime"
  else if l = "json" then "Json"
  else if l = "bytes" then "Bytes"
  else if l = "decimal" then "Decimal"
  else if l = "bigint" then "BigInt"
  else "String"

/-- One step of the `for (const rule of prop.validation)` loop in
`mapZodType` (`src/utils/helpers.ts`).  The source switch has no case for
`url`, `startsWith`, `endsWith` and `custom`, so they leave the
expression unchanged; `enum` replaces the whole expression built so far. -/
def zodApplyRule (b : String) (r : ValidationRule) : String :=
  match r with
  | .minLength v => b ++ ".min(" ++ toString v ++ ")"
  | .maxLength v => b ++ ".max(" ++ toString v ++ ")"
  | .pattern v => b ++ ".regex(/" ++ v ++ "/)"
  | .min v => b ++ ".min(" ++ toString v ++ ")"
  | .max v => b ++ ".max(" ++ toString v ++ ")"
  | .email => b ++ ".email()"
  | .uuid => b ++ ".uuid()"
  | .enum vs =>
    "z.enum([" ++ String.intercalate ", " (vs.map (fun v => "\"" ++ v ++ "\"")) ++ "])"
  | _ => b

/-- The base zod expression chosen by `mapZodType` before rules apply. -/
def zodBaseOf (p : Properties) : String :=
  let base :=
    if p.type = "string" then "z.string()"
    else if p.type = "number" then "z.number()"
    else if p.type = "boolean" then "z.boolean()"
    else "z.any()"
  if p.nullable then base ++ ".nullable()" else base

/-- `mapZodType` from `src/utils/helpers.ts`. -/
def mapZodType (p : Properties) : String :=
  match p.validation with
  | none => zodBaseOf p
  | some rules => rules.foldl zodApplyRule (zodBaseOf p)

/-- The constraint fragment a single rule appends (empty for the rules the
source switch ignores); for `enum` this is the full replacement
expression. -/
def zodFragment (r : ValidationRule) : String :=
  zodApplyRule "" r

def isEnumRule : ValidationRule → Bool
  | .enum _ => true
  | _ => false

/-! ## Storage-schema generator (`src/generators/prisma-schema.generator.ts`)

At runtime this generator never emits anything: the first statement of
its per-entity loop reads `w.controllers.name`, but the `Workflow` type
of `src/types/workflow.ts` (the type of the validated request entities)
has no `controllers` field, so `w.controllers` is `undefined` and the
loop throws a `TypeError` on its first iteration for every non-empty
entity list.  The definitions below therefore describe the emission the
loop body spells out — with the model name taken from `w.name`, the
field the current data model and every other consumer carry — and are
used only to give `compile`'s success branch a concrete value; no
theorem below rests on that success branch. -/

/-- The fixed generator/datasource header of `generateSchemaPrisma`. -/
def prismaHeader : String :=
  "generator client \x7b\n  provider = \"prisma-client-js\"\n\x7d\n\n" ++
  "datasource db \x7b\n  provider = \"postgresql\"\n  url      = env(\"DATABASE_URL\")\n\x7d\n\n"

/-- The line emitted for one property. -/
def prismaPropLine (p : Properties) : String :=
  "  " ++ p.name ++ "   " ++ mapToPrismaType p.type ++
    (if p.nullable then "?" else "") ++ "\n"

/-- The lines emitted for one declared relation (`w.relations?.map`
branch of `generateSchemaPrisma`).  Note the source's `one-to-many`
non-parent branch emits a scalar column named `relation.controller`
itself, not `relation.controller + "Id"`. -/
def prismaRelationLines (r : Relation) : List String :=
  match r.relation with
  | .oneToOne =>
    if r.isParent then
      ["  " ++ r.controller ++ " " ++ capitalize r.controller ++ "?\n"]
    else
      ["  " ++ r.controller ++ " " ++ capitalize r.controller ++
        "  @relation(fields: [" ++ r.controller ++ "Id], references: [id])\n",
       "  " ++ r.controller ++ "Id   String   @unique\n"]
  | .oneToMany =>
    if r.isParent then
      ["  " ++ pluralize r.controller ++ " " ++ capitalize r.controller ++ "[]\n"]
    else
      ["  " ++ r.controller ++ " " ++ capitalize r.controller ++
        "  @relation(fields: [" ++ r.controller ++ "Id], references: [id])\n",
       "  " ++ r.controller ++ "   String\n"]
  | .manyToMany =>
    ["  " ++ pluralize r.controller ++ " " ++ capitalize r.controller ++ "[]\n"]

/-- All lines of one `model` block, in the order the loop body appends
them.  The source reads the model name as `w.controllers.name` — a field
absent from the current `Workflow` type, so the real loop throws before
emitting any of these lines (see the section comment); this definition
capitalizes `w.name`, the field every other consumer carries. -/
def prismaModelLines (w : Workflow) : List String :=
  ["model " ++ capitalize w.name ++ " \x7b\n",
   "  id  String   @id @default(uuid())\n"]
  ++ (w.props.getD []).map prismaPropLine
  ++ ((w.relations.getD []).map prismaRelationLines).flatten
  ++ ["  createdAt DateTime @default(now())\n",
      "  updatedAt DateTime @updatedAt\n",
      "\x7d\n\n"]

/-- One `model` block as text. -/
def prismaModel (w : Workflow) : String :=
  String.join (prismaModelLines w)

/-- The full `schema.prisma` text built by `generateSchemaPrisma`
(`schema += model` in declaration order, after the fixed header). -/
def schemaContent (ws : List Workflow) : String :=
  ws.foldl (fun acc w => acc ++ prismaModel w) prismaHeader

/-! ## Runtime-type generator (`src/generators/type.generator.ts`) -/

/-- One property line of the generated runtime type. -/
def typePropLine (p : Properties) : String :=
  "  " ++ p.name ++ (if p.nullable then "?" else "") ++ ": " ++
    mapFieldType p.type ++ (if p.nullable then " | null" else "")  ++ ";"

/-- The connect-by-id block emitted per non-parent one-to-one /
one-to-many relation; other map callbacks return `undefined`, which
`Array.prototype.join` renders as the empty string. -/
def typeRelationBlock (r : Relation) : String :=
  if r.isParent = false ∧ (r.relation = .oneToOne ∨ r.relation = .oneToMany) then
    "\t" ++ r.controller ++ ": \x7b\n\t\tconnect: \x7b\n\t\t\tid: string\n\t\t\x7d\n\t\x7d"
  else ""

/-- The full text of one runtime-type file. -/
def typeContent (name : String) (relations : Option (List Relation))
    (props : List Properties) : String :=
  "export type " ++ capitalize name ++ "Type = \x7b\n" ++
  String.intercalate "\n" (props.map typePropLine) ++ "\n" ++
  (match relations with
   | none => ""
   | some rs => String.intercalate "\n" (rs.map typeRelationBlock)) ++
  "\n\x7d;\n"

/-- `generateType` from `src/generators/type.generator.ts` as a pure
function: the written file (path inside the project directory, content),
or `none` — the source returns before writing anything when `properties`
is `undefined` or empty. -/
def generateTypeFile (name : String) (relations : Option (List Relation))
    (props : Option (List Properties)) : Option (String × String) :=
  match props with
  | none => none
  | some ps =>
    if ps.length = 0 then none
    else some ("src/types/" ++ name ++ ".ts", typeContent name relations ps)

/-! ## Identifier validation (`src/utils/helpers.ts`) -/

def isJsIdentStart (c : Char) : Bool :=
  c.isAlpha ∨ c = '_' ∨ c = '$'

def isJsIdentCont (c : Char) : Bool :=
  isJsIdentStart c ∨ c.isDigit

/-- The test `/^[a-zA-Z_$][a-zA-Z0-9_$]*$/.test(name)` of
`validateEntityName`. -/
def isJsIdentifier (s : String) : Bool :=
  match s.data with
  | [] => false
  | c :: cs => isJsIdentStart c ∧ cs.all isJsIdentCont

def reservedKeywords : List String :=
  ["abstract", "arguments", "await", "boolean", "break", "byte", "case", "catch", "char",
   "class", "const", "continue", "debugger", "default", "delete", "do", "double", "else",
   "enum", "eval", "export", "extends", "false", "final", "finally", "float", "for",
   "function", "goto", "if", "implements", "import", "in", "instanceof", "int", "interface",
   "let", "long", "native", "new", "null", "package", "private", "protected", "public",
   "return", "short", "static", "super", "switch", "synchronized", "this", "throw",
   "throws", "transient", "true", "try", "typeof", "var", "void", "volatile", "while",
   "with", "yield"]

def problematicNames : List String :=
  ["constructor", "prototype", "toString", "valueOf"]

/-- `validateEntityName` from `src/utils/helpers.ts`, embedded as its
error list (the source's `isValid` is `errors.length === 0`). -/
def validateEntityName (name : String) : List String :=
  (if name = "" ∨ (jsTrim name).length = 0 then ["Entity name cannot be empty"] else [])
  ++ (if isJsIdentifier name then [] else
        ["Entity name must be a valid JavaScript identifier"])
  ++ (if jsToLower name ∈ reservedKeywords then
        ["\"" ++ name ++ "\" is a reserved JavaScript keyword"] else [])
  ++ (if jsToLower name ∈ problematicNames then
        ["\"" ++ name ++ "\" conflicts with JavaScript built-in properties"] else [])

/-- The SQL reserved-word list of `validatePropertyName` (the source
lists `group` twice; membership is unaffected). -/
def sqlReservedWords : List String :=
  ["select", "from", "where", "insert", "update", "delete", "create", "drop", "alter",
   "table", "database", "index", "view", "trigger", "procedure", "function", "user",
   "group", "order", "by", "having", "group", "union", "join", "inner", "outer", "left",
   "right", "full", "cross", "on", "as", "and", "or", "not", "null", "is", "like",
   "between", "in", "exists", "any", "all", "some", "case", "when", "then", "else",
   "end", "cast", "convert", "count", "sum", "avg", "min", "max", "distinct"]

/-- `validatePropertyName` from `src/utils/helpers.ts`. -/
def validatePropertyName (name : String) : List String :=
  validateEntityName name
  ++ (if jsToLower name ∈ sqlReservedWords then
        ["\"" ++ name ++ "\" is a SQL reserved word and may cause issues"] else [])

/-! ## Cycle detection (`validateRelationships` in `src/utils/helpers.ts`)

The first block of the source (`relationPairs`) builds a map that is never
read afterwards and produces no errors; it is omitted.  The DFS mutates
`visited`, `recursionStack` and `errors` which persist across the outer
loop; they are threaded explicitly.  The recursion is embedded with a
fuel argument; `validateRelationships` passes one more than the number of
graph nodes, which is shown (in the theorems below) to keep the
fuel-exhaustion branch unreachable. -/

/-- One element of the `allRelations` array built in
`validateWorkflowRequest`: a relation tagged with its declaring entity. -/
structure RelEntry where
  entity : String
  relation : Cardinality
  isParent : Bool
  controller : String
deriving DecidableEq

/-- The ownership-edge filter of `validateRelationships`: only
one-to-one / one-to-many relations with `isParent = true`, between
distinct non-empty names, become parent→child edges. -/
def isOwnershipEdge (r : RelEntry) : Bool :=
  r.entity ≠ "" ∧ r.controller ≠ "" ∧ r.entity ≠ r.controller ∧
    (r.relation = .oneToOne ∨ r.relation = .oneToMany) ∧ r.isParent

/-- The `parentChildEdges` map: insertion-ordered association list from a
parent entity to its (insertion-ordered, duplicate-free) child set. -/
abbrev Edges := List (String × List String)

def addEdge : Edges → String → String → Edges
  | [], a, b => [(a, [b])]
  | (k, cs) :: t, a, b =>
    if k = a then (k, if b ∈ cs then cs else cs ++ [b]) :: t
    else (k, cs) :: addEdge t a b

def buildEdges (rels : List RelEntry) : Edges :=
  rels.foldl (fun m r => if isOwnershipEdge r then addEdge m r.entity r.controller else m) []

def childrenOf : Edges → String → List String
  | [], _ => []
  | (k, cs) :: t, a => if k = a then cs else childrenOf t a

/-- All node names occurring in the edge map (used only to size the DFS
fuel). -/
def nodesOf (es : Edges) : List String :=
  (es.map Prod.fst ++ (es.map Prod.snd).flatten).dedup

/-- JS `Array.prototype.indexOf` (−1 when absent). -/
def jsIndexOf (l : List String) (x : String) : Int :=
  match l.findIdx? (fun y => y = x) with
  | some n => (n : Int)
  | none => -1

/-- JS `Array.prototype.slice(start)` for a single, possibly negative,
start index. -/
def jsSliceFrom (l : List String) (i : Int) : List String :=
  if 0 ≤ i then l.drop i.toNat
  else l.drop (((l.length : Int) + i).toNat)

/-- The error message pushed on cycle detection.  (The checked-in source
file shows the arrow as the mojibake bytes `â†’` of a mis-decoded UTF-8
`→`; the intended separator is used here.) -/
def cycleMsg (cyclePath : List String) : String :=
  "Circular inheritance detected: " ++ String.intercalate " → " cyclePath

/-- DFS result: `found` is the return value of `hasCycle`; `visited`,
`stack`, `errors` are the mutated sets/arrays. -/
structure Dfs where
  found : Bool
  visited : List String
  stack : List String
  errors : List String
deriving DecidableEq

/-- `hasCycle(entity, path)` from `validateRelationships`.  The JS
recursion carries no fuel; the embedding decrements `fuel` once per
nested `hasCycle` expansion, and `validateRelationships` below passes one
more than the number of graph nodes, which the theorems show keeps the
fuel-exhaustion branch unreachable (each expansion marks a fresh node
visited).  The `for (const child of children)` loop with its early
`return true` is embedded as a fold whose steps are no-ops once a cycle
has been found. -/
def dfsVisit (es : Edges) : Nat → List String → List String → List String →
    String → List String → Dfs
  | 0, v, s, err, _, _ => ⟨false, v, s, err⟩
  | fuel + 1, v, s, err, e, path =>
    if e ∈ s then
      ⟨true, v, s, err ++ [cycleMsg (jsSliceFrom path (jsIndexOf path e) ++ [e])]⟩
    else if e ∈ v then ⟨false, v, s, err⟩
    else
      let r := (childrenOf es e).foldl
        (fun acc c =>
          if acc.found then acc
          else dfsVisit es fuel acc.visited acc.stack acc.errors c (path ++ [e]))
        ⟨false, v ++ [e], s ++ [e], err⟩
      if r.found then r else ⟨false, r.visited, r.stack.erase e, r.errors⟩

/-- The child loop of `dfsVisit`, as a named function for reasoning. -/
def dfsLoop (es : Edges) (fuel : Nat) (path : List String) (ch : List String)
    (init : Dfs) : Dfs :=
  ch.foldl
    (fun acc c =>
      if acc.found then acc
      else dfsVisit es fuel acc.visited acc.stack acc.errors c path)
    init

lemma dfsVisit_zero (es : Edges) (v s err : List String) (e : String)
    (path : List String) : dfsVisit es 0 v s err e path = ⟨false, v, s, err⟩ := rfl

lemma dfsVisit_succ (es : Edges) (fuel : Nat) (v s err : List String) (e : String)
    (path : List String) :
    dfsVisit es (fuel + 1) v s err e path =
      if e ∈ s then
        ⟨true, v, s, err ++ [cycleMsg (jsSliceFrom path (jsIndexOf path e) ++ [e])]⟩
      else if e ∈ v then ⟨false, v, s, err⟩
      else
        let r := dfsLoop es fuel (path ++ [e]) (childrenOf es e)
          ⟨false, v ++ [e], s ++ [e], err⟩
        if r.found then r else ⟨false, r.visited, r.stack.erase e, r.errors⟩ := rfl

/-- The outer `for (const entity of parentChildEdges.keys())` loop. -/
def dfsAll (es : Edges) (fuel : Nat) : List String → Dfs → Dfs
  | [], st => st
  | k :: ks, st =>
    if k ∈ st.visited then dfsAll es fuel ks st
    else dfsAll es fuel ks (dfsVisit es fuel st.visited st.stack st.errors k [])

/-- `validateRelationships` from `src/utils/helpers.ts`, embedded as its
error list. -/
def validateRelationships (rels : List RelEntry) : List String :=
  let es := buildEdges rels
  let st := dfsAll es ((nodesOf es).length + 1) (es.map Prod.fst) ⟨false, [], [], []⟩
  st.errors

/-! ## Request validation (`src/middleware/validation.ts`) -/

/-- `validateValidationRule`, embedded as its error list and
parameterized by the JS `new RegExp` compilability test `regexOk` (the
host regex engine is outside this repository; every theorem below holds
for every `regexOk`).  The `typeof rule.value` checks of the source are
vacuous in this typed embedding and contribute the `value`-side checks
only where a numeric bound can actually fail. -/
def validateValidationRule (regexOk : String → Bool) (rule : ValidationRule)
    (propertyType : String) : List String :=
  match rule with
  | .minLength v =>
    (if propertyType ≠ "string" then
       ["minLength validation can only be applied to string properties"] else [])
    ++ (if v < 0 then ["minLength value must be a non-negative number"] else [])
  | .maxLength v =>
    (if propertyType ≠ "string" then
       ["maxLength validation can only be applied to string properties"] else [])
    ++ (if v < 0 then ["maxLength value must be a non-negative number"] else [])
  | .min _ =>
    if propertyType ∉ ["number", "int", "float", "date", "datetime"] then
      ["min validation can only be applied to number or date properties"] else []
  | .max _ =>
    if propertyType ∉ ["number", "int", "float", "date", "datetime"] then
      ["max validation can only be applied to number or date properties"] else []
  | .email =>
    if propertyType ≠ "string" then
      ["email validation can only be applied to string properties"] else []
  | .url =>
    if propertyType ≠ "string" then
      ["url validation can only be applied to string properties"] else []
  | .uuid =>
    if propertyType ≠ "string" then
      ["uuid validation can only be applied to string properties"] else []
  | .pattern v =>
    (if propertyType ≠ "string" then
       ["Pattern validation can only be applied to string properties"] else [])
    ++ (if regexOk v then [] else ["Invalid regex pattern"])
  | .enum vs =>
    if vs.length = 0 then ["Enum validation must have at least one value"] else []
  | .startsWith v =>
    (if propertyType ≠ "string" then
       ["startsWith validation can only be applied to string properties"] else [])
    ++ (if v = "" then ["startsWith value must be a non-empty string"] else [])
  | .endsWith v =>
    (if propertyType ≠ "string" then
       ["endsWith validation can only be applied to string properties"] else [])
    ++ (if v = "" then ["endsWith value must be a non-empty string"] else [])
  | .custom f =>
    if f = "" then ["Custom validation must have a validator function name"] else []

/-- The property loop of `validateWorkflowRequest` for one entity:
duplicate-name detection (with `continue`), property-name validation and
per-rule validation, threading the lowercased `propertyNames` set. -/
def propErrors (regexOk : String → Bool) (wname : String) :
    List Properties → List String → List String
  | [], _ => []
  | p :: ps, seen =>
    if jsToLower p.name ∈ seen then
      ("Entity \"" ++ wname ++ "\": Duplicate property name \"" ++ p.name ++ "\"")
        :: propErrors regexOk wname ps seen
    else
      (let nameErrs := validatePropertyName p.name
       if nameErrs.isEmpty then [] else
         ["Entity \"" ++ wname ++ "\", Property \"" ++ p.name ++ "\": " ++
            String.intercalate ", " nameErrs])
      ++ ((p.validation.getD []).filterMap (fun rule =>
            let ruleErrs := validateValidationRule regexOk rule p.type
            if ruleErrs.isEmpty then none else
              some ("Entity \"" ++ wname ++ "\", Property \"" ++ p.name ++ "\": " ++
                String.intercalate ", " ruleErrs)))
      ++ propErrors regexOk wname ps (seen ++ [jsToLower p.name])

/-- The dangling-reference message. -/
def danglingMsg (wname controller : String) : String :=
  "Entity \"" ++ wname ++ "\": Referenced entity \"" ++ controller ++ "\" does not exist"

/-- The relation loop of `validateWorkflowRequest` for one entity:
`entityNames` is the lowercased set accumulated so far (a subset of all
lowercased entity names, so the `.has` test never fires unless the
`.some` test would). -/
def relationCheckErrors (all : List Workflow) (names : List String)
    (w : Workflow) : List String :=
  (w.relations.getD []).filterMap (fun r =>
    if jsToLower r.controller ∉ names ∧
        ¬ all.any (fun w2 => jsToLower w2.name = jsToLower r.controller) then
      some (danglingMsg w.name r.controller)
    else none)

/-- The `for (const workflow of workflows)` loop of
`validateWorkflowRequest`, threading the lowercased `entityNames` set and
the error list.  A duplicate name pushes one error and skips (`continue`)
all further checks for that entity. -/
def collectEntities (regexOk : String → Bool) (all : List Workflow) :
    List Workflow → List String → List String
  | [], _ => []
  | w :: rest, names =>
    if jsToLower w.name ∈ names then
      ("Duplicate entity name: " ++ w.name) :: collectEntities regexOk all rest names
    else
      (let nameErrs := validateEntityName w.name
       if nameErrs.isEmpty then [] else
         ["Entity \"" ++ w.name ++ "\": " ++ String.intercalate ", " nameErrs])
      ++ propErrors regexOk w.name (w.props.getD []) []
      ++ relationCheckErrors all (names ++ [jsToLower w.name]) w
      ++ collectEntities regexOk all rest (names ++ [jsToLower w.name])

/-- The `allRelations` array of `validateWorkflowRequest`. -/
def allRelations (ws : List Workflow) : List RelEntry :=
  (ws.map (fun w => (w.relations.getD []).map (fun r =>
    RelEntry.mk w.name r.relation r.isParent r.controller))).flatten

/-- The complete `validationErrors` array collected by
`validateWorkflowRequest` after the zod parse: entity loop, then
relationship cycle validation, then project-name validation. -/
def validationErrorsOf (regexOk : String → Bool) (data : Workflows) : List String :=
  collectEntities regexOk data.workflows data.workflows []
  ++ validateRelationships (allRelations data.workflows)
  ++ (let projErrs := validateEntityName data.name
      if projErrs.isEmpty then [] else
        ["Project name: " ++ String.intercalate ", " projErrs])

/-- FieldType tags admitted by the zod `PropertiesSchema`. -/
def allowedTypeTags : List String :=
  ["string", "number", "boolean", "bigint", "symbol", "undefined",
   "null", "object", "array", "function", "date", "any", "unknown",
   "void", "never", "json", "float", "int", "datetime", "bytes", "decimal"]

/-- The structural constraints the zod `ValidationRuleSchema` imposes. -/
def ruleSchemaOk : ValidationRule → Bool
  | .minLength v => 0 ≤ v
  | .maxLength v => 1 ≤ v
  | .pattern v => v ≠ ""
  | .min _ => true
  | .max _ => true
  | .email => true
  | .url => true
  | .uuid => true
  | .enum vs => vs ≠ []
  | .startsWith v => v ≠ ""
  | .endsWith v => v ≠ ""
  | .custom f => f ≠ ""

/-- The zod `WorkflowsSchema.safeParse` success condition
(`src/middleware/validation.ts`): required non-empty `id`, `name` of
length 1–50, 1–20 entities, and per-entity/property/relation shape
constraints.  String lengths are codepoint counts in this embedding. -/
def parseWorkflows (data : Workflows) : Bool :=
  data.id ≠ "" ∧ 1 ≤ data.name.length ∧ data.name.length ≤ 50 ∧
  1 ≤ data.workflows.length ∧ data.workflows.length ≤ 20 ∧
  data.workflows.all (fun w =>
    w.name ≠ "" ∧
    (w.props.getD []).all (fun p =>
      p.name ≠ "" ∧ p.type ∈ allowedTypeTags ∧
      (p.validation.getD []).all ruleSchemaOk) ∧
    (w.relations.getD []).all (fun r => r.controller ≠ ""))

/-! ## Orchestration (`workflow.service.ts`, `workflow.controller.ts`,
`workflow.routes.ts`)

The route installs `validateWorkflowRequest` before
`handleWorkflowGenerate`, so a validation failure prevents any
generation.  `generateWorkflow`'s filesystem writes are modelled as the
ordered list of project-relative file paths, plus the storage-schema text
that claim-level theorems inspect. -/

/-- Modelled from the spec: `tsconfig.generator.ts` is imported by
`workflow.service.ts` but absent from the repository snapshot; per spec
§6 it contributes the project-root TypeScript configuration file. -/
def tsconfigPath : String := "tsconfig.json"

/-- The files written for one entity by the service loop: the optional
runtime-type file, then the service, controller and route files. -/
def entityPaths (w : Workflow) : List String :=
  (match generateTypeFile w.name w.relations w.props with
   | none => []
   | some (p, _) => [p])
  ++ ["src/services/" ++ w.name ++ ".service.ts",
      "src/controllers/" ++ w.name ++ ".controller.ts",
      "src/routes/" ++ w.name ++ ".routes.ts"]

/-- All project-relative paths written by `generateWorkflow`, in write
order (optional feature generators, disabled in this model, write
nothing). -/
def outputPaths (data : Workflows) : List String :=
  [tsconfigPath,
   "src/utils/ApiError.ts", "src/utils/catchAsync.ts",
   "src/utils/response.ts", "src/utils/helpers.ts",
   "src/middleware/errorHandler.ts"]
  ++ (data.workflows.map entityPaths).flatten
  ++ ["src/lib/prisma.ts", "prisma/schema.prisma", "src/app.ts",
      "src/server.ts", "package.json", ".env", "README.md"]

/-- The artifacts a successful compilation materializes. -/
structure CompileOk where
  paths : List String
  prismaSchema : String
deriving DecidableEq

/-- The request pipeline `validateWorkflowRequest` →
`handleWorkflowGenerate` → `generateWorkflow` as a pure function: either
the error list of the failing gate, or the artifact set the service is
written to produce.  The success branch over-approximates the source:
the real `generateWorkflow` always throws inside `generateSchemaPrisma`
(the `w.controllers.name` `TypeError`) once the gates pass, so no
request ever completes successfully; the theorems below use `compile`
only for its rejection behavior, for which the over-approximation is
sound — a rejection proved here is a rejection in the source. -/
def compile (regexOk : String → Bool) (data : Workflows) :
    Except (List String) CompileOk :=
  if parseWorkflows data = false then
    Except.error ["Invalid request format"]
  else if (validationErrorsOf regexOk data).isEmpty = false then
    Except.error (validationErrorsOf regexOk data)
  else if data.workflows.length = 0 then
    Except.error ["At least one workflow is required"]
  else if 20 < data.workflows.length then
    Except.error ["Maximum 20 entities allowed per project"]
  else
    Except.ok ⟨outputPaths data, schemaContent data.workflows⟩

/-! ## Concrete example inputs used by several claims -/

/-- Two entities whose names collide case-insensitively. -/
def exampleUserUser : Workflows :=
  ⟨"1", "Shop", [⟨"User", none, none⟩, ⟨"user", none, none⟩]⟩

/-- A duplicate-named entity carrying a dangling relation. -/
def exampleDupDangling : Workflows :=
  ⟨"1", "Shop", [⟨"A", none, none⟩, ⟨"A", none, some [⟨.oneToMany, false, "zzz"⟩]⟩]⟩

/-- An everywhere-true regex-compilability oracle (the examples above
contain no `pattern` rule, so any oracle gives the same results). -/
def trueRegex : String → Bool := fun _ => true

/-! ## C5 — validation-rule / property-type compatibility -/

/-- C5: on a property of declared type `string`, a numeric/date bound
rule (`min`/`max`) is rejected by `validateValidationRule` while the
length bounds (`minLength`/`maxLength`, with their schema-legal
non-negative value) are accepted; conversely `min`/`max` are accepted on
every numeric/date-like type. -/
theorem C5_min_max_rule_compatibility (regexOk : String → Bool) (v : Int) (hv : 0 ≤ v) :
    validateValidationRule regexOk (.min v) "string" ≠ [] ∧
    validateValidationRule regexOk (.max v) "string" ≠ [] ∧
    validateValidationRule regexOk (.minLength v) "string" = [] ∧
    validateValidationRule regexOk (.maxLength v) "string" = [] ∧
    (∀ t ∈ ["number", "int", "float", "date", "datetime"],
      validateValidationRule regexOk (.min v) t = [] ∧
      validateValidationRule regexOk (.max v) t = []) := by
  refine ⟨by simp [validateValidationRule], by simp [validateValidationRule], ?_, ?_, ?_⟩
  · simp [validateValidationRule, not_lt.mpr hv]
  · simp [validateValidationRule, not_lt.mpr hv]
  · intro t ht
    fin_cases ht <;> simp [validateValidationRule]

/-- Witness for C5 at `v = 3`. -/
theorem C5_min_max_rule_compatibility_witness :
    validateValidationRule trueRegex (.min 3) "string" ≠ [] ∧
    validateValidationRule trueRegex (.minLength 3) "string" = [] ∧
    validateValidationRule trueRegex (.min 3) "number" = [] :=
  ⟨(C5_min_max_rule_compatibility trueRegex 3 (by decide)).1,
   (C5_min_max_rule_compatibility trueRegex 3 (by decide)).2.2.1,
   ((C5_min_max_rule_compatibility trueRegex 3 (by decide)).2.2.2.2 "number"
      (by simp)).1⟩

/-! ## C6 — constraint-expression composition and the enum reset -/

lemma zodApplyRule_of_not_enum (b : String) (r : ValidationRule)
    (h : isEnumRule r = false) : zodApplyRule b r = b ++ zodFragment r := by
  cases r <;> simp_all [isEnumRule, zodApplyRule, zodFragment, String.append_assoc]

lemma join_cons (a : String) (l : List String) :
    String.join (a :: l) = a ++ String.join l := by
  apply String.ext
  simp [String.data_join, String.data_append]

lemma foldl_zodApplyRule_of_not_enum (rules : List ValidationRule) :
    ∀ (b : String), (∀ r ∈ rules, isEnumRule r = false) →
      rules.foldl zodApplyRule b = b ++ String.join (rules.map zodFragment) := by
  induction rules with
  | nil =>
    intro b _
    simp [String.join]
  | cons r rest ih =>
    intro b h
    have hr : isEnumRule r = false := h r (by simp)
    have hrest : ∀ x ∈ rest, isEnumRule x = false := fun x hx => h x (by simp [hx])
    rw [List.foldl_cons, zodApplyRule_of_not_enum b r hr, ih _ hrest,
      List.map_cons, join_cons, ← String.append_assoc]

/-- C6: the constraint-expression mapping composes one fragment per rule
in declaration order onto the base expression; an `enum` rule replaces
everything composed so far (base expression, nullable marker, prior
fragments) by the enum expression alone, with later rules appended after
it. -/
theorem C6_constraint_composition :
    (∀ (p : Properties) (rules : List ValidationRule),
      p.validation = some rules → (∀ r ∈ rules, isEnumRule r = false) →
      mapZodType p = zodBaseOf p ++ String.join (rules.map zodFragment)) ∧
    (∀ (p : Properties) (pre post : List ValidationRule) (vs : List String),
      p.validation = some (pre ++ ValidationRule.enum vs :: post) →
      (∀ r ∈ post, isEnumRule r = false) →
      mapZodType p = zodApplyRule "" (.enum vs) ++ String.join (post.map zodFragment)) := by
  constructor
  · intro p rules hval h
    rw [mapZodType, hval]
    exact foldl_zodApplyRule_of_not_enum rules (zodBaseOf p) h
  · intro p pre post vs hval h
    rw [mapZodType, hval]
    show List.foldl zodApplyRule (zodBaseOf p) (pre ++ ValidationRule.enum vs :: post) = _
    rw [List.foldl_append, List.foldl_cons]
    have hstep : ∀ b : String, zodApplyRule b (.enum vs) = zodApplyRule "" (.enum vs) := by
      intro b
      simp [zodApplyRule]
    rw [hstep]
    exact foldl_zodApplyRule_of_not_enum post _ h

/-- Witness for C6: `number` property with rules `[min 3, enum [a, b], max 9]`. -/
theorem C6_constraint_composition_witness :
    mapZodType ⟨"age", "number", false, some [.min 3, .enum ["a", "b"], .max 9]⟩ =
      zodApplyRule "" (.enum ["a", "b"]) ++
        String.join ([ValidationRule.max 9].map zodFragment) :=
  C6_constraint_composition.2
    ⟨"age", "number", false, some [.min 3, .enum ["a", "b"], .max 9]⟩
    [.min 3] [.max 9] ["a", "b"] rfl (by decide)

/-! ## C8 — the 1–20 entity-count gate -/

/-- C8: a compilation request is accepted only with 1–20 entities; zero
entities or more than 20 are rejected before any generation occurs. -/
theorem C8_entity_count_gate (regexOk : String → Bool) (data : Workflows) :
    ((data.workflows.length = 0 ∨ 20 < data.workflows.length) →
      ∃ errs, compile regexOk data = .error errs) ∧
    (∀ out, compile regexOk data = .ok out →
      1 ≤ data.workflows.length ∧ data.workflows.length ≤ 20) := by
  constructor
  · intro hlen
    by_cases hp : parseWorkflows data = false
    · exact ⟨_, by rw [compile, if_pos hp]⟩
    · exfalso
      have hp' : parseWorkflows data = true := by
        revert hp
        cases parseWorkflows data <;> simp
      rw [parseWorkflows, decide_eq_true_eq] at hp'
      rcases hlen with h0 | h20
      · omega
      · omega
  · intro out hout
    rw [compile] at hout
    by_cases hp : parseWorkflows data = false
    · rw [if_pos hp] at hout
      exact absurd hout (by simp)
    · rw [if_neg hp] at hout
      have hp' : parseWorkflows data = true := by
        revert hp
        cases parseWorkflows data <;> simp
      rw [parseWorkflows, decide_eq_true_eq] at hp'
      omega

/-- Witness for C8 at the empty-entity request. -/
theorem C8_entity_count_gate_witness :
    ∃ errs, compile trueRegex ⟨"1", "Shop", []⟩ = .error errs :=
  (C8_entity_count_gate trueRegex ⟨"1", "Shop", []⟩).1 (Or.inl rfl)

/-! ## C3 — case-insensitive duplicate entity names -/

/-- If a workflow's lowercased name already occurs in the accumulated
name set or earlier in the remaining list, the duplicate error for it is
collected. -/
lemma dup_mem_collectEntities (regexOk : String → Bool) (all : List Workflow) :
    ∀ (ws : List Workflow) (names : List String) (j : Nat) (hj : j < ws.length),
      (jsToLower (ws.get ⟨j, hj⟩).name ∈ names ∨
        ∃ i, ∃ hij : i < j,
          jsToLower (ws.get ⟨i, Nat.lt_trans hij hj⟩).name = jsToLower (ws.get ⟨j, hj⟩).name) →
      ("Duplicate entity name: " ++ (ws.get ⟨j, hj⟩).name) ∈
        collectEntities regexOk all ws names := by
  intro ws
  induction ws with
  | nil =>
    intro names j hj
    exact absurd hj (by simp)
  | cons w rest ih =>
    intro names j hj hyp
    cases j with
    | zero =>
      have hmem : jsToLower w.name ∈ names := by
        rcases hyp with h | ⟨i, hij, _⟩
        · simpa using h
        · omega
      simp only [collectEntities, if_pos hmem]
      simp
    | succ j' =>
      have hj' : j' < rest.length := by simpa using hj
      by_cases hdup : jsToLower w.name ∈ names
      · simp only [collectEntities, if_pos hdup]
        refine List.mem_cons_of_mem _ ?_
        have := ih names j' hj' ?_
        · simpa using this
        · rcases hyp with h | ⟨i, hij, heq⟩
          · exact Or.inl (by simpa using h)
          · cases i with
            | zero =>
              refine Or.inl ?_
              have : jsToLower w.name = jsToLower (rest.get ⟨j', hj'⟩).name := by
                simpa using heq
              rw [← this]
              exact hdup
            | succ i' =>
              refine Or.inr ⟨i', by omega, ?_⟩
              simpa using heq
      · simp only [collectEntities, if_neg hdup]
        have hrec := ih (names ++ [jsToLower w.name]) j' hj' ?_
        · simp only [List.mem_append]
          right
          simpa using hrec
        · rcases hyp with h | ⟨i, hij, heq⟩
          · exact Or.inl (by simp; left; simpa using h)
          · cases i with
            | zero =>
              refine Or.inl ?_
              have hwr : jsToLower w.name = jsToLower (rest.get ⟨j', hj'⟩).name := by
                simpa using heq
              simp only [List.mem_append, List.mem_singleton]
              exact Or.inr hwr.symm
            | succ i' =>
              refine Or.inr ⟨i', by omega, ?_⟩
              simpa using heq

lemma mem_validationErrorsOf_of_mem_collect {regexOk : String → Bool}
    {data : Workflows} {e : String}
    (h : e ∈ collectEntities regexOk data.workflows data.workflows []) :
    e ∈ validationErrorsOf regexOk data := by
  unfold validationErrorsOf
  exact List.mem_append_left _ (List.mem_append_left _ h)

lemma compile_error_of_errors (regexOk : String → Bool) (data : Workflows)
    (h : validationErrorsOf regexOk data ≠ []) :
    ∃ errs, compile regexOk data = .error errs := by
  rw [compile]
  by_cases hp : parseWorkflows data = false
  · rw [if_pos hp]
    exact ⟨_, rfl⟩
  · rw [if_neg hp, if_pos ?_]
    · exact ⟨_, rfl⟩
    · cases heq : validationErrorsOf regexOk data with
      | nil => exact absurd heq h
      | cons a l => simp

/-- C3: any two entities with case-insensitively equal names produce a
duplicate-name error and compilation fails before generation; for the
concrete `User`/`user` pair the validator yields exactly the one
duplicate error and the pipeline produces no artifacts. -/
theorem C3_duplicate_names :
    (∀ (regexOk : String → Bool) (data : Workflows) (i j : Nat)
      (hij : i < j) (hj : j < data.workflows.length),
      jsToLower (data.workflows.get ⟨i, Nat.lt_trans hij hj⟩).name =
          jsToLower (data.workflows.get ⟨j, hj⟩).name →
      ("Duplicate entity name: " ++ (data.workflows.get ⟨j, hj⟩).name) ∈
          validationErrorsOf regexOk data ∧
        ∃ errs, compile regexOk data = .error errs) ∧
    (validationErrorsOf trueRegex exampleUserUser = ["Duplicate entity name: user"] ∧
      compile trueRegex exampleUserUser = .error ["Duplicate entity name: user"]) := by
  constructor
  · intro regexOk data i j hij hj heq
    have hmem : ("Duplicate entity name: " ++ (data.workflows.get ⟨j, hj⟩).name) ∈
        validationErrorsOf regexOk data :=
      mem_validationErrorsOf_of_mem_collect
        (dup_mem_collectEntities regexOk data.workflows data.workflows [] j hj
          (Or.inr ⟨i, hij, heq⟩))
    refine ⟨hmem, compile_error_of_errors regexOk data ?_⟩
    intro hnil
    rw [hnil] at hmem
    exact absurd hmem (by simp)
  · constructor
    · decide
    · rfl

/-- Witness for C3 at the `User`/`user` input. -/
theorem C3_duplicate_names_witness :
    "Duplicate entity name: user" ∈ validationErrorsOf trueRegex exampleUserUser := by
  have h := (C3_duplicate_names.1 trueRegex exampleUserUser 0 1 (by decide) (by decide)
    (by decide)).1
  simpa using h


/-! ## C4 — dangling relation references -/

/-- The accumulated `entityNames` set never changes the outcome of the
per-relation existence check, because it only ever holds lowercased names
of declared entities, which the `workflows.some` scan finds as well. -/
lemma relationCheckErrors_eq (all : List Workflow) (names : List String) (w : Workflow)
    (h : ∀ x ∈ names, ∃ w2 ∈ all, x = jsToLower w2.name) :
    relationCheckErrors all names w = relationCheckErrors all [] w := by
  rw [relationCheckErrors, relationCheckErrors]
  apply List.filterMap_congr
  intro r _
  by_cases hany : all.any (fun w2 => jsToLower w2.name = jsToLower r.controller)
  · rw [if_neg (by simp [hany]), if_neg (by simp [hany])]
  · have hnotin : jsToLower r.controller ∉ names := by
      intro hmem
      obtain ⟨w2, hw2, he⟩ := h _ hmem
      exact hany (List.any_eq_true.mpr ⟨w2, hw2, by simp [he]⟩)
    rw [if_pos ⟨hnotin, hany⟩, if_pos ⟨by simp, hany⟩]

lemma relErr_mem_collectEntities (regexOk : String → Bool) (all : List Workflow) :
    ∀ (ws : List Workflow) (names : List String) (i : Nat) (hi : i < ws.length),
      jsToLower (ws.get ⟨i, hi⟩).name ∉ names →
      (∀ j, (hj : j < i) →
        jsToLower (ws.get ⟨j, Nat.lt_trans hj hi⟩).name ≠ jsToLower (ws.get ⟨i, hi⟩).name) →
      (∀ x ∈ names, ∃ w2 ∈ all, x = jsToLower w2.name) →
      (∀ x ∈ ws, x ∈ all) →
      ∀ e ∈ relationCheckErrors all [] (ws.get ⟨i, hi⟩),
        e ∈ collectEntities regexOk all ws names := by
  intro ws
  induction ws with
  | nil =>
    intro names i hi
    exact absurd hi (by simp)
  | cons w rest ih =>
    intro names i hi hnotin hprior hnames hall e he
    cases i with
    | zero =>
      simp only [List.get] at hnotin he
      rw [collectEntities, if_neg hnotin]
      have hsub : ∀ x ∈ names ++ [jsToLower w.name], ∃ w2 ∈ all, x = jsToLower w2.name := by
        intro x hx
        rcases List.mem_append.mp hx with hx | hx
        · exact hnames x hx
        · exact ⟨w, hall w (by simp), by simpa using hx⟩
      have : e ∈ relationCheckErrors all (names ++ [jsToLower w.name]) w := by
        rw [relationCheckErrors_eq all _ w hsub]
        exact he
      simp only [List.append_assoc, List.mem_append]
      right
      right
      left
      exact this
    | succ i' =>
      have hi' : i' < rest.length := by simpa using hi
      have hget : (w :: rest).get ⟨i' + 1, hi⟩ = rest.get ⟨i', hi'⟩ := rfl
      rw [hget] at hnotin he
      by_cases hdup : jsToLower w.name ∈ names
      · rw [collectEntities, if_pos hdup]
        refine List.mem_cons_of_mem _ ?_
        refine ih names i' hi' hnotin ?_ hnames (fun x hx => hall x (by simp [hx])) e he
        intro j hj
        have := hprior (j + 1) (by omega)
        simpa using this
      · rw [collectEntities, if_neg hdup]
        simp only [List.append_assoc, List.mem_append]
        right
        right
        right
        refine ih (names ++ [jsToLower w.name]) i' hi' ?_ ?_ ?_
          (fun x hx => hall x (by simp [hx])) e he
        · intro hx
          rcases List.mem_append.mp hx with hx | hx
          · exact hnotin hx
          · have hx' : jsToLower (rest.get ⟨i', hi'⟩).name = jsToLower w.name := by
              simpa using hx
            have h0 := hprior 0 (by omega)
            exact h0 hx'.symm
        · intro j hj
          have := hprior (j + 1) (by omega)
          simpa using this
        · intro x hx
          rcases List.mem_append.mp hx with hx | hx
          · exact hnames x hx
          · exact ⟨w, hall w (by simp), by simpa using hx⟩

lemma danglingMsg_inj {wname c1 c2 : String}
    (h : danglingMsg wname c1 = danglingMsg wname c2) : c1 = c2 := by
  rw [danglingMsg, danglingMsg] at h
  have hd := congrArg String.data h
  simp only [String.data_append, List.append_assoc] at hd
  exact String.ext (List.append_cancel_right
    (List.append_cancel_left (List.append_cancel_left (List.append_cancel_left hd))))

/-- C4 (amended): for every relation of an entity that is not skipped as
a case-insensitive duplicate of an earlier entity, validation reports the
dangling-reference error whenever the target name matches no entity of
the Workflow (declaration order is irrelevant: the check scans all
entities, so forward references resolve); and the per-entity relation
check emits the error exactly for the unmatched targets.  Relations of a
skipped duplicate entity are not checked. -/
theorem C4_dangling_reference :
    (∀ (regexOk : String → Bool) (data : Workflows) (i : Nat)
      (hi : i < data.workflows.length),
      (∀ j, (hj : j < i) →
        jsToLower (data.workflows.get ⟨j, Nat.lt_trans hj hi⟩).name ≠
          jsToLower (data.workflows.get ⟨i, hi⟩).name) →
      ∀ r ∈ (data.workflows.get ⟨i, hi⟩).relations.getD [],
        ¬ data.workflows.any (fun w2 => jsToLower w2.name = jsToLower r.controller) →
        danglingMsg (data.workflows.get ⟨i, hi⟩).name r.controller ∈
          validationErrorsOf regexOk data) ∧
    (∀ (all : List Workflow) (w : Workflow) (r : Relation), r ∈ w.relations.getD [] →
      (danglingMsg w.name r.controller ∈ relationCheckErrors all [] w ↔
        ¬ all.any (fun w2 => jsToLower w2.name = jsToLower r.controller))) := by
  constructor
  · intro regexOk data i hi hprior r hr hnone
    have hstep : danglingMsg (data.workflows.get ⟨i, hi⟩).name r.controller ∈
        relationCheckErrors data.workflows [] (data.workflows.get ⟨i, hi⟩) := by
      rw [relationCheckErrors]
      refine List.mem_filterMap.mpr ⟨r, hr, ?_⟩
      rw [if_pos ⟨by simp, hnone⟩]
    have hcol := relErr_mem_collectEntities regexOk data.workflows data.workflows []
      i hi (by simp) hprior (by simp) (fun x hx => hx) _ hstep
    exact mem_validationErrorsOf_of_mem_collect hcol
  · intro all w r _
    constructor
    · intro hmem
      rw [relationCheckErrors] at hmem
      obtain ⟨r2, _, hr2e⟩ := List.mem_filterMap.mp hmem
      by_cases hany : all.any (fun w2 => jsToLower w2.name = jsToLower r2.controller)
      · rw [if_neg (by simp [hany])] at hr2e
        exact Option.noConfusion hr2e
      · rw [if_pos ⟨by simp, hany⟩] at hr2e
        injection hr2e with hmsg
        rw [danglingMsg_inj hmsg] at hany
        exact hany
    · intro hnone
      rw [relationCheckErrors]
      refine List.mem_filterMap.mpr ⟨r, ‹r ∈ w.relations.getD []›, ?_⟩
      rw [if_pos ⟨by simp, hnone⟩]

/-- C4 counterexample: the second entity `A` is skipped as a duplicate,
so its relation to the non-existent `zzz` — which the claim requires to
be reported — produces no dangling-reference error; the full error list
is just the duplicate-name error. -/
theorem C4_counterexample :
    (¬ exampleDupDangling.workflows.any
        (fun w2 => jsToLower w2.name = jsToLower "zzz")) ∧
    validationErrorsOf trueRegex exampleDupDangling = ["Duplicate entity name: A"] ∧
    danglingMsg "A" "zzz" ∉ validationErrorsOf trueRegex exampleDupDangling := by
  refine ⟨by decide, by decide, by decide⟩

/-- Witness for the amended C4 at a single entity with a dangling
relation. -/
theorem C4_dangling_reference_witness :
    danglingMsg "a" "zzz" ∈ validationErrorsOf trueRegex
      ⟨"1", "Shop", [⟨"a", none, some [⟨.oneToMany, false, "zzz"⟩]⟩]⟩ := by
  have h := C4_dangling_reference.1 trueRegex
    ⟨"1", "Shop", [⟨"a", none, some [⟨.oneToMany, false, "zzz"⟩]⟩]⟩ 0 (by decide)
    (by intro j hj; omega) ⟨.oneToMany, false, "zzz"⟩ (by decide) (by decide)
  exact h

/-! ## C2 — cycle detection over the strict-ownership subgraph

The plan: `validateRelationships` reports an error exactly when the
parent→child edge map built from the ownership edges contains a directed
cycle.  Soundness tracks that the recursion stack is a chain in the graph
until the first report; completeness maintains a topologically ordered
list of finished nodes and shows an error-free run finishes every node,
which is impossible on a cycle. -/

/-- Directed edge of the `parentChildEdges` map. -/
def hasEdgeB (es : Edges) (a b : String) : Bool :=
  decide (b ∈ childrenOf es a)

/-- The consecutive elements of the list are joined by edges. -/
def chainB (es : Edges) : List String → Bool
  | [] => true
  | [_] => true
  | a :: b :: t => hasEdgeB es a b && chainB es (b :: t)

/-- A directed cycle: a chain of length ≥ 2 whose first and last
elements coincide. -/
def CycleIn (es : Edges) : Prop :=
  ∃ l : List String, 2 ≤ l.length ∧ l.head? = l.getLast? ∧ chainB es l = true

lemma chain_tail (es : Edges) {l : List String} {a : String}
    (h : chainB es (a :: l) = true) : chainB es l = true := by
  cases l with
  | nil => rfl
  | cons b t =>
    rw [chainB, Bool.and_eq_true] at h
    exact h.2

lemma chain_of_append (es : Edges) :
    ∀ (l₁ l₂ : List String), chainB es (l₁ ++ l₂) = true → chainB es l₂ = true := by
  intro l₁
  induction l₁ with
  | nil => exact fun l₂ h => h
  | cons a t ih => exact fun l₂ h => ih l₂ (chain_tail es h)

lemma chain_snoc (es : Edges) :
    ∀ (l : List String) (a b : String), chainB es l = true →
      l.getLast? = some a → hasEdgeB es a b = true → chainB es (l ++ [b]) = true := by
  intro l
  induction l with
  | nil =>
    intro a b _ hlast
    exact Option.noConfusion hlast
  | cons x t ih =>
    intro a b hchain hlast hedge
    cases t with
    | nil =>
      have hxa : x = a := by
        injection hlast
      subst hxa
      show (hasEdgeB es x b && chainB es [b]) = true
      rw [hedge]
      rfl
    | cons y t' =>
      rw [chainB, Bool.and_eq_true] at hchain
      have hlast' : (y :: t').getLast? = some a := by
        rw [← hlast]
        exact (List.getLast?_cons_cons ..).symm
      have := ih a b hchain.2 hlast' hedge
      rw [List.cons_append] at this
      rw [List.cons_append, List.cons_append, chainB, Bool.and_eq_true]
      exact ⟨hchain.1, this⟩

lemma cycle_of_stack_mem (es : Edges) {s : List String} {e : String}
    (hchain : chainB es (s ++ [e]) = true) (hmem : e ∈ s) : CycleIn es := by
  obtain ⟨s1, s2, rfl⟩ := List.append_of_mem hmem
  refine ⟨e :: (s2 ++ [e]), by simp, ?_, ?_⟩
  · rw [show e :: (s2 ++ [e]) = (e :: s2) ++ [e] from rfl]
    rw [List.getLast?_concat]
    rfl
  · have h2 : (s1 ++ e :: s2) ++ [e] = s1 ++ (e :: (s2 ++ [e])) := by simp
    rw [h2] at hchain
    exact chain_of_append es s1 _ hchain

/-! ### Basic state-threading facts about the DFS -/

/-- Along any `dfsVisit` call: visited only grows, a `false` return
restores the stack and the error list, a `true` return leaves a
non-empty error list, and errors only grow. -/
def VisitBasic (es : Edges) (fuel : Nat) : Prop :=
  ∀ v s err e path,
    (∃ δ, (dfsVisit es fuel v s err e path).visited = v ++ δ) ∧
    ((dfsVisit es fuel v s err e path).found = false →
      (dfsVisit es fuel v s err e path).stack = s ∧
      (dfsVisit es fuel v s err e path).errors = err) ∧
    ((dfsVisit es fuel v s err e path).found = true →
      (dfsVisit es fuel v s err e path).errors ≠ []) ∧
    (∃ δe, (dfsVisit es fuel v s err e path).errors = err ++ δe)

/-- The loop analogue of `VisitBasic`. -/
def LoopBasic (es : Edges) (fuel : Nat) : Prop :=
  ∀ path ch init,
    (∃ δ, (dfsLoop es fuel path ch init).visited = init.visited ++ δ) ∧
    ((dfsLoop es fuel path ch init).found = false →
      init.found = false ∧
      (dfsLoop es fuel path ch init).stack = init.stack ∧
      (dfsLoop es fuel path ch init).errors = init.errors) ∧
    ((dfsLoop es fuel path ch init).found = true →
      init.found = true ∨ (dfsLoop es fuel path ch init).errors ≠ []) ∧
    (∃ δe, (dfsLoop es fuel path ch init).errors = init.errors ++ δe)

lemma dfsLoop_nil (es : Edges) (fuel : Nat) (path : List String) (init : Dfs) :
    dfsLoop es fuel path [] init = init := rfl

lemma dfsLoop_cons (es : Edges) (fuel : Nat) (path : List String) (c : String)
    (cs : List String) (init : Dfs) :
    dfsLoop es fuel path (c :: cs) init =
      dfsLoop es fuel path cs
        (if init.found then init
         else dfsVisit es fuel init.visited init.stack init.errors c path) := rfl

lemma loop_basic_of_visit (es : Edges) (fuel : Nat) (hV : VisitBasic es fuel) :
    LoopBasic es fuel := by
  intro path ch
  induction ch with
  | nil =>
    intro init
    rw [dfsLoop_nil]
    exact ⟨⟨[], by simp⟩, fun h => ⟨h, rfl, rfl⟩, fun h => Or.inl h, ⟨[], by simp⟩⟩
  | cons c cs ih =>
    intro init
    rw [dfsLoop_cons]
    by_cases hf : init.found = true
    · rw [if_pos hf]
      obtain ⟨h1, h2, h3, h4⟩ := ih init
      refine ⟨h1, ?_, fun _ => Or.inl hf, h4⟩
      intro hfl
      exact absurd hf (by simp [(h2 hfl).1])
    · rw [if_neg hf]
      obtain ⟨⟨δ1, hδ1⟩, h2v, h3v, ⟨δe1, hδe1⟩⟩ :=
        hV init.visited init.stack init.errors c path
      obtain ⟨⟨δ2, hδ2⟩, h2l, h3l, ⟨δe2, hδe2⟩⟩ :=
        ih (dfsVisit es fuel init.visited init.stack init.errors c path)
      refine ⟨⟨δ1 ++ δ2, by rw [hδ2, hδ1, List.append_assoc]⟩, ?_, ?_, ?_⟩
      · intro hfl
        obtain ⟨hr1f, hls, hle⟩ := h2l hfl
        obtain ⟨hrs, hre⟩ := h2v hr1f
        exact ⟨by simpa using hf, by rw [hls, hrs], by rw [hle, hre]⟩
      · intro hfl
        rcases h3l hfl with hr1f | hne
        · right
          rw [hδe2]
          intro hnil
          exact (h3v hr1f) (List.append_eq_nil.mp hnil).1
        · exact Or.inr hne
      · exact ⟨δe1 ++ δe2, by rw [hδe2, hδe1, List.append_assoc]⟩

lemma visit_basic (es : Edges) : ∀ fuel, VisitBasic es fuel := by
  intro fuel
  induction fuel with
  | zero =>
    intro v s err e path
    rw [dfsVisit_zero]
    exact ⟨⟨[], by simp⟩, fun _ => ⟨rfl, rfl⟩, fun h => Bool.noConfusion h, ⟨[], by simp⟩⟩
  | succ f ih =>
    have hL := loop_basic_of_visit es f ih
    intro v s err e path
    rw [dfsVisit_succ]
    by_cases h1 : e ∈ s
    · rw [if_pos h1]
      exact ⟨⟨[], by simp⟩, fun h => Bool.noConfusion h, fun _ => by simp,
        ⟨[cycleMsg (jsSliceFrom path (jsIndexOf path e) ++ [e])], rfl⟩⟩
    · rw [if_neg h1]
      by_cases h2 : e ∈ v
      · rw [if_pos h2]
        exact ⟨⟨[], by simp⟩, fun _ => ⟨rfl, rfl⟩, fun h => Bool.noConfusion h,
          ⟨[], by simp⟩⟩
      · rw [if_neg h2]
        obtain ⟨⟨δ, hδ⟩, h2l, h3l, ⟨δe, hδe⟩⟩ :=
          hL (path ++ [e]) (childrenOf es e) ⟨false, v ++ [e], s ++ [e], err⟩
        by_cases h3 :
            (dfsLoop es f (path ++ [e]) (childrenOf es e)
              ⟨false, v ++ [e], s ++ [e], err⟩).found = true
        · rw [if_pos h3]
          refine ⟨⟨[e] ++ δ, by rw [← List.append_assoc]; exact hδ⟩, ?_, ?_, ⟨δe, hδe⟩⟩
          · intro hcon
            rw [h3] at hcon
            exact Bool.noConfusion hcon
          · intro _
            rcases h3l h3 with hif | hne
            · exact Bool.noConfusion hif
            · exact hne
        · rw [if_neg h3]
          have h3' :
              (dfsLoop es f (path ++ [e]) (childrenOf es e)
                ⟨false, v ++ [e], s ++ [e], err⟩).found = false := by
            revert h3
            cases (dfsLoop es f (path ++ [e]) (childrenOf es e)
              ⟨false, v ++ [e], s ++ [e], err⟩).found <;> simp
          obtain ⟨-, hls, hle⟩ := h2l h3'
          refine ⟨⟨[e] ++ δ, by rw [← List.append_assoc]; exact hδ⟩, ?_,
            fun h => Bool.noConfusion h, ⟨δe, hδe⟩⟩
          intro _
          constructor
          · rw [hls]
            show (s ++ [e]).erase e = s
            rw [List.erase_append_right _ h1]
            simp
          · exact hle

/-! ### Soundness: a reported error implies a cycle -/

/-- If the stack extended by the current node is a chain, a `true`
return means a cycle exists. -/
def VisitSound (es : Edges) (fuel : Nat) : Prop :=
  ∀ v s err e path, chainB es (s ++ [e]) = true →
    (dfsVisit es fuel v s err e path).found = true → CycleIn es

/-- The loop analogue of `VisitSound`: the stack is a chain ending in
the node whose children are being explored. -/
def LoopSound (es : Edges) (fuel : Nat) : Prop :=
  ∀ path ch (init : Dfs) (e : String),
    init.found = false → chainB es init.stack = true →
    init.stack.getLast? = some e →
    (∀ c ∈ ch, hasEdgeB es e c = true) →
    (dfsLoop es fuel path ch init).found = true → CycleIn es

lemma loop_sound_of (es : Edges) (fuel : Nat) (hV : VisitSound es fuel)
    (hB : VisitBasic es fuel) : LoopSound es fuel := by
  intro path ch
  induction ch with
  | nil =>
    intro init e hf _ _ _ hfound
    rw [dfsLoop_nil, hf] at hfound
    exact Bool.noConfusion hfound
  | cons c cs ih =>
    intro init e hf hchain hlast hedges hfound
    rw [dfsLoop_cons, if_neg (by rw [hf]; exact Bool.false_ne_true)] at hfound
    by_cases hr1 : (dfsVisit es fuel init.visited init.stack init.errors c path).found = true
    · exact hV init.visited init.stack init.errors c path
        (chain_snoc es init.stack e c hchain hlast (hedges c (by simp))) hr1
    · have hr1' : (dfsVisit es fuel init.visited init.stack init.errors c path).found
          = false := by
        revert hr1
        cases (dfsVisit es fuel init.visited init.stack init.errors c path).found <;> simp
      obtain ⟨hs, -⟩ := (hB init.visited init.stack init.errors c path).2.1 hr1'
      refine ih _ e hr1' ?_ ?_ ?_ hfound
      · rw [hs]
        exact hchain
      · rw [hs]
        exact hlast
      · intro c' hc'
        exact hedges c' (by simp [hc'])

lemma visit_sound (es : Edges) : ∀ fuel, VisitSound es fuel := by
  intro fuel
  induction fuel with
  | zero =>
    intro v s err e path _ hfound
    rw [dfsVisit_zero] at hfound
    exact Bool.noConfusion hfound
  | succ f ih =>
    have hL := loop_sound_of es f ih (visit_basic es f)
    intro v s err e path hchain hfound
    rw [dfsVisit_succ] at hfound
    by_cases h1 : e ∈ s
    · exact cycle_of_stack_mem es hchain h1
    · rw [if_neg h1] at hfound
      by_cases h2 : e ∈ v
      · rw [if_pos h2] at hfound
        exact Bool.noConfusion hfound
      · rw [if_neg h2] at hfound
        by_cases h3 : (dfsLoop es f (path ++ [e]) (childrenOf es e)
            ⟨false, v ++ [e], s ++ [e], err⟩).found = true
        · refine hL (path ++ [e]) (childrenOf es e)
            ⟨false, v ++ [e], s ++ [e], err⟩ e rfl hchain (List.getLast?_concat _) ?_ h3
          intro c hc
          simp [hasEdgeB, hc]
        · rw [if_neg h3] at hfound
          exact Bool.noConfusion hfound

lemma dfsAll_nil (es : Edges) (fuel : Nat) (st : Dfs) :
    dfsAll es fuel [] st = st := rfl

lemma dfsAll_cons (es : Edges) (fuel : Nat) (k : String) (ks : List String) (st : Dfs) :
    dfsAll es fuel (k :: ks) st =
      if k ∈ st.visited then dfsAll es fuel ks st
      else dfsAll es fuel ks (dfsVisit es fuel st.visited st.stack st.errors k []) := rfl

lemma dfsAll_errors_extend (es : Edges) (fuel : Nat) :
    ∀ keys st, ∃ δ, (dfsAll es fuel keys st).errors = st.errors ++ δ := by
  intro keys
  induction keys with
  | nil => exact fun st => ⟨[], by rw [dfsAll_nil]; simp⟩
  | cons k ks ih =>
    intro st
    rw [dfsAll_cons]
    by_cases hk : k ∈ st.visited
    · rw [if_pos hk]
      exact ih st
    · rw [if_neg hk]
      obtain ⟨δ1, h1⟩ := (visit_basic es fuel st.visited st.stack st.errors k []).2.2.2
      obtain ⟨δ2, h2⟩ := ih (dfsVisit es fuel st.visited st.stack st.errors k [])
      exact ⟨δ1 ++ δ2, by rw [h2, h1, List.append_assoc]⟩

lemma dfsAll_sound (es : Edges) (fuel : Nat) :
    ∀ keys st, st.stack = [] → st.errors = [] →
      (dfsAll es fuel keys st).errors ≠ [] → CycleIn es := by
  intro keys
  induction keys with
  | nil =>
    intro st _ herr hne
    rw [dfsAll_nil] at hne
    exact absurd herr hne
  | cons k ks ih =>
    intro st hstack herr hne
    rw [dfsAll_cons] at hne
    by_cases hk : k ∈ st.visited
    · rw [if_pos hk] at hne
      exact ih st hstack herr hne
    · rw [if_neg hk] at hne
      by_cases hf : (dfsVisit es fuel st.visited st.stack st.errors k []).found = true
      · apply visit_sound es fuel st.visited st.stack st.errors k [] ?_ hf
        rw [hstack]
        rfl
      · have hf' : (dfsVisit es fuel st.visited st.stack st.errors k []).found = false := by
          revert hf
          cases (dfsVisit es fuel st.visited st.stack st.errors k []).found <;> simp
        obtain ⟨hs, he⟩ := (visit_basic es fuel st.visited st.stack st.errors k []).2.1 hf'
        exact ih _ (by rw [hs, hstack]) (by rw [he, herr]) hne

/-! ### Completeness: an error-free run finishes every node, and a
finished set closed under edges with strictly decreasing ranks cannot
contain a cycle -/

/-- Number of graph nodes not yet visited: the quantity that shrinks
each time the DFS expands a node, justifying the fuel bound. -/
def unvisited (es : Edges) (v : List String) : Nat :=
  ((nodesOf es).filter (fun x => decide (x ∉ v))).length

lemma filter_length_mono {α : Type} {p q : α → Bool} :
    ∀ {l : List α}, (∀ a ∈ l, p a = true → q a = true) →
      (l.filter p).length ≤ (l.filter q).length := by
  intro l
  induction l with
  | nil => exact fun _ => Nat.le_refl 0
  | cons x t ih =>
    intro h
    have ht := ih (fun a ha hpa => h a (List.mem_cons_of_mem x ha) hpa)
    rw [List.filter_cons, List.filter_cons]
    by_cases hp : p x = true
    · rw [if_pos hp, if_pos (h x (List.mem_cons_self x t) hp)]
      exact Nat.succ_le_succ ht
    · rw [if_neg hp]
      by_cases hq : q x = true
      · rw [if_pos hq]
        exact Nat.le_succ_of_le ht
      · rw [if_neg hq]
        exact ht

lemma filter_length_strict {α : Type} {p q : α → Bool} :
    ∀ {l : List α}, (∀ a ∈ l, p a = true → q a = true) →
      ∀ a ∈ l, q a = true → p a = false →
      (l.filter p).length < (l.filter q).length := by
  intro l
  induction l with
  | nil =>
    intro _ a ha
    exact absurd ha (List.not_mem_nil a)
  | cons x t ih =>
    intro h a ha hqa hpa
    have hmono := filter_length_mono (fun b hb hpb => h b (List.mem_cons_of_mem x hb) hpb)
    rw [List.filter_cons, List.filter_cons]
    rcases List.mem_cons.mp ha with rfl | hat
    · rw [if_neg (by rw [hpa]; exact Bool.false_ne_true), if_pos hqa]
      exact Nat.lt_succ_of_le hmono
    · by_cases hp : p x = true
      · rw [if_pos hp, if_pos (h x (List.mem_cons_self x t) hp)]
        exact Nat.succ_lt_succ
          (ih (fun b hb hpb => h b (List.mem_cons_of_mem x hb) hpb) a hat hqa hpa)
      · rw [if_neg hp]
        have hlt := ih (fun b hb hpb => h b (List.mem_cons_of_mem x hb) hpb) a hat hqa hpa
        by_cases hq : q x = true
        · rw [if_pos hq]
          exact Nat.lt_succ_of_lt hlt
        · rw [if_neg hq]
          exact hlt

lemma unvisited_mono (es : Edges) (v δ : List String) :
    unvisited es (v ++ δ) ≤ unvisited es v := by
  apply filter_length_mono
  intro a _ ha
  simp only [decide_eq_true_eq] at ha ⊢
  intro hav
  exact ha (List.mem_append_left _ hav)

lemma unvisited_strict (es : Edges) {v : List String} {e : String}
    (he : e ∈ nodesOf es) (hv : e ∉ v) :
    unvisited es (v ++ [e]) < unvisited es v := by
  refine filter_length_strict ?_ e he ?_ ?_
  · intro a _ ha
    simp only [decide_eq_true_eq] at ha ⊢
    intro hav
    exact ha (List.mem_append_left _ hav)
  · simpa using hv
  · simp

lemma indexOf_append_mem (y : String) :
    ∀ (a b : List String), y ∈ a → (a ++ b).indexOf y = a.indexOf y := by
  intro a
  induction a with
  | nil =>
    intro b h
    exact absurd h (List.not_mem_nil y)
  | cons x t ih =>
    intro b h
    rw [List.cons_append, List.indexOf_cons, List.indexOf_cons]
    by_cases hx : x = y
    · rw [show (x == y) = true from beq_iff_eq.mpr hx]
      rfl
    · rw [show (x == y) = false from beq_eq_false_iff_ne.mpr hx]
      show (t ++ b).indexOf y + 1 = t.indexOf y + 1
      have h' : y ∈ t := by
        rcases List.mem_cons.mp h with h'' | h''
        · exact absurd h''.symm hx
        · exact h''
      rw [ih b h']

lemma indexOf_append_not_mem (y : String) :
    ∀ (a b : List String), y ∉ a → (a ++ b).indexOf y = a.length + b.indexOf y := by
  intro a
  induction a with
  | nil =>
    intro b _
    simp
  | cons x t ih =>
    intro b h
    simp only [List.mem_cons, not_or] at h
    rw [List.cons_append, List.indexOf_cons]
    rw [show (x == y) = false from beq_eq_false_iff_ne.mpr (fun he => h.1 he.symm)]
    show (t ++ b).indexOf y + 1 = (x :: t).length + b.indexOf y
    rw [ih b h.2, List.length_cons]
    omega

lemma childrenOf_mem_keys : ∀ (es : Edges) (e : String), childrenOf es e ≠ [] →
    e ∈ es.map Prod.fst := by
  intro es
  induction es with
  | nil =>
    intro e h
    exact absurd rfl h
  | cons p t ih =>
    intro e h
    obtain ⟨k, cs⟩ := p
    rw [List.map_cons]
    by_cases hk : k = e
    · exact List.mem_cons.mpr (Or.inl hk.symm)
    · have h' : childrenOf t e ≠ [] := by
        rw [show childrenOf ((k, cs) :: t) e
          = if k = e then cs else childrenOf t e from rfl, if_neg hk] at h
        exact h
      exact List.mem_cons.mpr (Or.inr (ih e h'))

lemma childrenOf_ne_nil_mem (es : Edges) (e : String) (h : childrenOf es e ≠ []) :
    e ∈ nodesOf es := by
  unfold nodesOf
  rw [List.mem_dedup]
  exact List.mem_append_left _ (childrenOf_mem_keys es e h)

lemma hasEdgeB_mem_keys (es : Edges) {x y : String} (h : hasEdgeB es x y = true) :
    x ∈ es.map Prod.fst := by
  apply childrenOf_mem_keys es x
  intro hnil
  have hm := of_decide_eq_true h
  rw [hnil] at hm
  exact absurd hm (List.not_mem_nil y)

lemma erase_snoc (s : List String) (e : String) (h : e ∉ s) :
    (s ++ [e]).erase e = s := by
  rw [List.erase_append_right _ h]
  simp

/-- The invariant of an error-free search: the recursion stack has no
duplicates, and the finished nodes (visited and off the stack) form a
list `L` every edge out of which lands strictly earlier in `L`. -/
def FInv (es : Edges) (v s : List String) : Prop :=
  s.Nodup ∧ ∃ L : List String, L.Nodup ∧
    (∀ x, (x ∈ v ∧ x ∉ s) ↔ x ∈ L) ∧
    (∀ x ∈ L, ∀ y, hasEdgeB es x y = true → y ∈ L ∧ L.indexOf y < L.indexOf x)

lemma FInv_init (es : Edges) : FInv es [] [] :=
  ⟨List.nodup_nil, [], List.nodup_nil,
    fun x => ⟨fun h => absurd h.1 (List.not_mem_nil x), fun h => absurd h (List.not_mem_nil x)⟩,
    fun x hx => absurd hx (List.not_mem_nil x)⟩

lemma FInv_push {es : Edges} {v s : List String} {e : String}
    (h : FInv es v s) (hes : e ∉ s) (hev : e ∉ v) :
    FInv es (v ++ [e]) (s ++ [e]) := by
  obtain ⟨hnd, L, hLnd, hiff, hdesc⟩ := h
  refine ⟨?_, L, hLnd, ?_, hdesc⟩
  · rw [List.nodup_append]
    refine ⟨hnd, List.nodup_singleton e, ?_⟩
    intro a ha hae
    rw [List.mem_singleton] at hae
    exact hes (hae ▸ ha)
  · intro x
    by_cases hx : x = e
    · subst hx
      constructor
      · intro ⟨_, hxs⟩
        exact absurd (List.mem_append_right _ (by simp)) hxs
      · intro hxL
        exact absurd ((hiff x).mpr hxL).1 hev
    · constructor
      · intro ⟨hxv, hxs⟩
        apply (hiff x).mp
        refine ⟨?_, ?_⟩
        · rcases List.mem_append.mp hxv with h' | h'
          · exact h'
          · exact absurd (List.mem_singleton.mp h') hx
        · intro hxs'
          exact hxs (List.mem_append_left _ hxs')
      · intro hxL
        obtain ⟨hxv, hxs⟩ := (hiff x).mpr hxL
        refine ⟨List.mem_append_left _ hxv, ?_⟩
        intro hmem
        rcases List.mem_append.mp hmem with h' | h'
        · exact hxs h'
        · exact hx (List.mem_singleton.mp h')

lemma FInv_pop {es : Edges} {lv s : List String} {e : String}
    (h : FInv es lv (s ++ [e])) (hes : e ∉ s) (he : e ∈ lv)
    (hch : ∀ c, hasEdgeB es e c = true → c ∈ lv ∧ c ∉ s ++ [e]) :
    FInv es lv s := by
  obtain ⟨hnd, L, hLnd, hiff, hdesc⟩ := h
  have hnd' : s.Nodup := (List.nodup_append.mp hnd).1
  have heL : e ∉ L := by
    intro hcon
    exact ((hiff e).mpr hcon).2 (List.mem_append_right _ (by simp))
  refine ⟨hnd', L ++ [e], ?_, ?_, ?_⟩
  · rw [List.nodup_append]
    refine ⟨hLnd, List.nodup_singleton e, ?_⟩
    intro a ha hae
    exact heL ((List.mem_singleton.mp hae) ▸ ha)
  · intro x
    by_cases hx : x = e
    · subst hx
      constructor
      · intro _
        exact List.mem_append_right _ (by simp)
      · intro _
        exact ⟨he, hes⟩
    · constructor
      · intro ⟨hxv, hxs⟩
        apply List.mem_append_left
        apply (hiff x).mp
        refine ⟨hxv, ?_⟩
        intro hmem
        rcases List.mem_append.mp hmem with h' | h'
        · exact hxs h'
        · exact hx (List.mem_singleton.mp h')
      · intro hxL
        rcases List.mem_append.mp hxL with h' | h'
        · obtain ⟨hxv, hxs⟩ := (hiff x).mpr h'
          exact ⟨hxv, fun hc => hxs (List.mem_append_left _ hc)⟩
        · exact absurd (List.mem_singleton.mp h') hx
  · intro x hxL' y hy
    rcases List.mem_append.mp hxL' with hxL | hxe
    · obtain ⟨hyL, hidx⟩ := hdesc x hxL y hy
      refine ⟨List.mem_append_left _ hyL, ?_⟩
      rw [indexOf_append_mem y L [e] hyL, indexOf_append_mem x L [e] hxL]
      exact hidx
    · have hx : x = e := List.mem_singleton.mp hxe
      subst hx
      obtain ⟨hyv, hys⟩ := hch y hy
      have hyL : y ∈ L := (hiff y).mp ⟨hyv, hys⟩
      refine ⟨List.mem_append_left _ hyL, ?_⟩
      rw [indexOf_append_mem y L [x] hyL, indexOf_append_not_mem x L [x] heL]
      have hlt : L.indexOf y < L.length := List.indexOf_lt_length.mpr hyL
      have h0 : ([x] : List String).indexOf x = 0 := by simp
      omega

/-- Error-free `dfsVisit` preserves the invariant, restores the stack,
and leaves the visited node finished. -/
def VisitCL (es : Edges) (fuel : Nat) : Prop :=
  ∀ v s err e path, unvisited es v < fuel → FInv es v s →
    (dfsVisit es fuel v s err e path).found = false →
    FInv es (dfsVisit es fuel v s err e path).visited
      (dfsVisit es fuel v s err e path).stack ∧
    (dfsVisit es fuel v s err e path).stack = s ∧
    e ∈ (dfsVisit es fuel v s err e path).visited ∧
    e ∉ s

/-- The loop analogue of `VisitCL`: at the end of an error-free loop
over the remaining children of `e`, every child of `e` is finished. -/
def LoopCL (es : Edges) (fuel : Nat) : Prop :=
  ∀ path ch (init : Dfs) (e : String),
    (ch ≠ [] → unvisited es init.visited < fuel) →
    init.found = false → FInv es init.visited init.stack →
    e ∈ init.visited →
    (∀ c ∈ childrenOf es e, c ∈ ch ∨ (c ∈ init.visited ∧ c ∉ init.stack)) →
    (dfsLoop es fuel path ch init).found = false →
    FInv es (dfsLoop es fuel path ch init).visited
      (dfsLoop es fuel path ch init).stack ∧
    (dfsLoop es fuel path ch init).stack = init.stack ∧
    e ∈ (dfsLoop es fuel path ch init).visited ∧
    (∀ c ∈ childrenOf es e, c ∈ (dfsLoop es fuel path ch init).visited ∧
      c ∉ (dfsLoop es fuel path ch init).stack)

lemma loop_CL_of (es : Edges) (fuel : Nat) (hVCL : VisitCL es fuel)
    (hB : VisitBasic es fuel) : LoopCL es fuel := by
  intro path ch
  induction ch with
  | nil =>
    intro init e _ _ hFI he hch _
    rw [dfsLoop_nil]
    refine ⟨hFI, rfl, he, ?_⟩
    intro c hc
    rcases hch c hc with h' | h'
    · exact absurd h' (List.not_mem_nil c)
    · exact h'
  | cons c cs ih =>
    intro init e hfuel hf hFI he hch hloop
    have hstep : dfsLoop es fuel path (c :: cs) init
        = dfsLoop es fuel path cs
            (dfsVisit es fuel init.visited init.stack init.errors c path) := by
      rw [dfsLoop_cons, if_neg (by rw [hf]; exact Bool.false_ne_true)]
    rw [hstep] at hloop ⊢
    have hr1f : (dfsVisit es fuel init.visited init.stack init.errors c path).found
        = false :=
      ((loop_basic_of_visit es fuel hB path cs
        (dfsVisit es fuel init.visited init.stack init.errors c path)).2.1 hloop).1
    obtain ⟨hFI1, hs1, hc1, hcns⟩ := hVCL init.visited init.stack init.errors c path
      (hfuel (by simp)) hFI hr1f
    obtain ⟨δ1, hδ1⟩ := (hB init.visited init.stack init.errors c path).1
    have hfuel' : cs ≠ [] →
        unvisited es (dfsVisit es fuel init.visited init.stack init.errors c path).visited
          < fuel := by
      intro _
      rw [hδ1]
      exact lt_of_le_of_lt (unvisited_mono es init.visited δ1) (hfuel (by simp))
    have he1 : e ∈ (dfsVisit es fuel init.visited init.stack init.errors c path).visited := by
      rw [hδ1]
      exact List.mem_append_left _ he
    have hch1 : ∀ c' ∈ childrenOf es e,
        c' ∈ cs ∨
        (c' ∈ (dfsVisit es fuel init.visited init.stack init.errors c path).visited ∧
         c' ∉ (dfsVisit es fuel init.visited init.stack init.errors c path).stack) := by
      intro c' hc'
      rcases hch c' hc' with h' | h'
      · rcases List.mem_cons.mp h' with rfl | h''
        · right
          refine ⟨hc1, ?_⟩
          rw [hs1]
          exact hcns
        · left
          exact h''
      · right
        refine ⟨?_, ?_⟩
        · rw [hδ1]
          exact List.mem_append_left _ h'.1
        · rw [hs1]
          exact h'.2
    obtain ⟨hA, hB', hC, hD⟩ :=
      ih (dfsVisit es fuel init.visited init.stack init.errors c path) e
        hfuel' hr1f hFI1 he1 hch1 hloop
    exact ⟨hA, by rw [hB', hs1], hC, hD⟩

lemma visit_CL (es : Edges) : ∀ fuel, VisitCL es fuel := by
  intro fuel
  induction fuel with
  | zero =>
    intro v s err e path hfuel _ _
    exact absurd hfuel (Nat.not_lt_zero _)
  | succ f ih =>
    have hLCL := loop_CL_of es f ih (visit_basic es f)
    intro v s err e path hfuel hFI hfound
    by_cases h1 : e ∈ s
    · rw [dfsVisit_succ, if_pos h1] at hfound
      exact Bool.noConfusion hfound
    · by_cases h2 : e ∈ v
      · rw [dfsVisit_succ, if_neg h1, if_pos h2]
        exact ⟨hFI, rfl, h2, h1⟩
      · rw [dfsVisit_succ, if_neg h1, if_neg h2] at hfound ⊢
        set r := dfsLoop es f (path ++ [e]) (childrenOf es e)
          ⟨false, v ++ [e], s ++ [e], err⟩ with hr
        by_cases h3 : r.found = true
        · rw [if_pos h3] at hfound
          rw [hfound] at h3
          exact Bool.noConfusion h3
        · have h3' : r.found = false := by
            revert h3
            cases r.found <;> simp
          rw [if_neg h3] at hfound ⊢
          have hinit : FInv es (v ++ [e]) (s ++ [e]) := FInv_push hFI h1 h2
          have hfuel' : childrenOf es e ≠ [] → unvisited es (v ++ [e]) < f := by
            intro hne
            have hlt := unvisited_strict es (childrenOf_ne_nil_mem es e hne) h2
            omega
          obtain ⟨hA, hBs, hC, hD⟩ := hLCL (path ++ [e]) (childrenOf es e)
            ⟨false, v ++ [e], s ++ [e], err⟩ e hfuel' rfl hinit (by simp)
            (fun c hc => Or.inl hc) h3'
          rw [← hr] at hA hBs hC hD
          have hstk : r.stack = s ++ [e] := hBs
          refine ⟨?_, ?_, hC, h1⟩
          · show FInv es r.visited (r.stack.erase e)
            rw [hstk, erase_snoc s e h1]
            rw [hstk] at hA
            refine FInv_pop hA h1 hC ?_
            intro c hcedge
            obtain ⟨h5, h6⟩ := hD c (of_decide_eq_true hcedge)
            rw [hstk] at h6
            exact ⟨h5, h6⟩
          · show r.stack.erase e = s
            rw [hstk]
            exact erase_snoc s e h1

lemma dfsAll_visited_extend (es : Edges) (fuel : Nat) :
    ∀ keys st, ∃ δ, (dfsAll es fuel keys st).visited = st.visited ++ δ := by
  intro keys
  induction keys with
  | nil => exact fun st => ⟨[], by rw [dfsAll_nil]; simp⟩
  | cons k ks ih =>
    intro st
    rw [dfsAll_cons]
    by_cases hk : k ∈ st.visited
    · rw [if_pos hk]
      exact ih st
    · rw [if_neg hk]
      obtain ⟨δ1, h1⟩ := (visit_basic es fuel st.visited st.stack st.errors k []).1
      obtain ⟨δ2, h2⟩ := ih (dfsVisit es fuel st.visited st.stack st.errors k [])
      exact ⟨δ1 ++ δ2, by rw [h2, h1, List.append_assoc]⟩

lemma dfsAll_complete (es : Edges) (fuel : Nat) :
    ∀ keys st, unvisited es st.visited < fuel → st.stack = [] →
      FInv es st.visited [] → st.errors = [] →
      (dfsAll es fuel keys st).errors = [] →
      FInv es (dfsAll es fuel keys st).visited [] ∧
      (∀ k ∈ keys, k ∈ (dfsAll es fuel keys st).visited) := by
  intro keys
  induction keys with
  | nil =>
    intro st _ _ hFI _ _
    rw [dfsAll_nil]
    exact ⟨hFI, fun k hk => absurd hk (List.not_mem_nil k)⟩
  | cons k ks ih =>
    intro st hfuel hstack hFI herr hfin
    rw [dfsAll_cons] at hfin ⊢
    by_cases hk : k ∈ st.visited
    · rw [if_pos hk] at hfin ⊢
      obtain ⟨h1, h2⟩ := ih st hfuel hstack hFI herr hfin
      refine ⟨h1, ?_⟩
      intro k' hk'
      rcases List.mem_cons.mp hk' with rfl | h'
      · obtain ⟨δ, hδ⟩ := dfsAll_visited_extend es fuel ks st
        rw [hδ]
        exact List.mem_append_left _ hk
      · exact h2 k' h'
    · rw [if_neg hk] at hfin ⊢
      set r := dfsVisit es fuel st.visited st.stack st.errors k [] with hr
      by_cases hf : r.found = true
      · exfalso
        have hne := (visit_basic es fuel st.visited st.stack st.errors k []).2.2.1 hf
        obtain ⟨δ, hδ⟩ := dfsAll_errors_extend es fuel ks r
        rw [hδ] at hfin
        rw [← hr] at hne
        exact hne (List.append_eq_nil.mp hfin).1
      · have hf' : r.found = false := by
          revert hf
          cases r.found <;> simp
        have hFIs : FInv es st.visited st.stack := by
          rw [hstack]
          exact hFI
        obtain ⟨hA, hBs, hC, -⟩ :=
          visit_CL es fuel st.visited st.stack st.errors k [] hfuel hFIs hf'
        obtain ⟨-, hee⟩ := (visit_basic es fuel st.visited st.stack st.errors k []).2.1 hf'
        obtain ⟨δv, hδv⟩ := (visit_basic es fuel st.visited st.stack st.errors k []).1
        rw [← hr] at hA hBs hC hee hδv
        have hstack2 : r.stack = [] := by
          rw [hBs, hstack]
        have hfuel2 : unvisited es r.visited < fuel := by
          rw [hδv]
          exact lt_of_le_of_lt (unvisited_mono es st.visited δv) hfuel
        rw [hstack2] at hA
        have herr2 : r.errors = [] := by
          rw [hee, herr]
        obtain ⟨h1, h2⟩ := ih r hfuel2 hstack2 hA herr2 hfin
        refine ⟨h1, ?_⟩
        intro k' hk'
        rcases List.mem_cons.mp hk' with rfl | h'
        · obtain ⟨δ2, hδ2⟩ := dfsAll_visited_extend es fuel ks r
          rw [hδ2]
          exact List.mem_append_left _ hC
        · exact h2 k' h'

/-- Every node of a chain either has an out-edge or is the chain's
last element. -/
lemma chain_has_out (es : Edges) :
    ∀ (t : List String) (a : String), chainB es (a :: t) = true →
      ∀ x ∈ a :: t, (∃ y, hasEdgeB es x y = true) ∨ (a :: t).getLast? = some x := by
  intro t
  induction t with
  | nil =>
    intro a _ x hx
    right
    rcases List.mem_cons.mp hx with rfl | h'
    · rfl
    · exact absurd h' (List.not_mem_nil x)
  | cons b t' ih =>
    intro a hchain x hx
    rw [chainB, Bool.and_eq_true] at hchain
    rcases List.mem_cons.mp hx with rfl | h'
    · exact Or.inl ⟨b, hchain.1⟩
    · rcases ih b hchain.2 x h' with h'' | h''
      · exact Or.inl h''
      · right
        rw [List.getLast?_cons_cons]
        exact h''

lemma cycle_nodes_have_out (es : Edges) {l : List String}
    (hlen : 2 ≤ l.length) (hhl : l.head? = l.getLast?) (hchain : chainB es l = true) :
    ∀ x ∈ l, ∃ y, hasEdgeB es x y = true := by
  cases l with
  | nil => simp at hlen
  | cons a t =>
    cases t with
    | nil => simp at hlen
    | cons b t' =>
      intro x hx
      rcases chain_has_out es (b :: t') a hchain x hx with h | h
      · exact h
      · have hxa : x = a := by
          rw [← hhl] at h
          injection h with h
          exact h.symm
        subst hxa
        rw [chainB, Bool.and_eq_true] at hchain
        exact ⟨b, hchain.1⟩

/-- Along a chain inside the topologically sorted finished list, the
rank drops by at least one per step. -/
lemma chain_rank (es : Edges) (L : List String)
    (hdesc : ∀ x ∈ L, ∀ y, hasEdgeB es x y = true → y ∈ L ∧ L.indexOf y < L.indexOf x) :
    ∀ (t : List String) (a g : String), chainB es (a :: t) = true → a ∈ L →
      (a :: t).getLast? = some g → L.indexOf g + t.length ≤ L.indexOf a := by
  intro t
  induction t with
  | nil =>
    intro a g _ _ hg
    have : a = g := by
      injection hg
    subst this
    simp
  | cons b t' ih =>
    intro a g hchain haL hg
    rw [chainB, Bool.and_eq_true] at hchain
    obtain ⟨hbL, hlt⟩ := hdesc a haL b hchain.1
    rw [List.getLast?_cons_cons] at hg
    have hrank := ih b g hchain.2 hbL hg
    rw [List.length_cons]
    omega

/-- `validateRelationships` reports some error exactly when the
ownership edge map contains a directed cycle. -/
lemma validateRelationships_ne_nil_iff (rels : List RelEntry) :
    validateRelationships rels ≠ [] ↔ CycleIn (buildEdges rels) := by
  constructor
  · intro hne
    have hne' : (dfsAll (buildEdges rels) ((nodesOf (buildEdges rels)).length + 1)
        ((buildEdges rels).map Prod.fst) ⟨false, [], [], []⟩).errors ≠ [] := hne
    exact dfsAll_sound (buildEdges rels) ((nodesOf (buildEdges rels)).length + 1)
      ((buildEdges rels).map Prod.fst) ⟨false, [], [], []⟩ rfl rfl hne'
  · intro hcyc hnil
    obtain ⟨l, hlen, hhl, hchain⟩ := hcyc
    have hnil' : (dfsAll (buildEdges rels) ((nodesOf (buildEdges rels)).length + 1)
        ((buildEdges rels).map Prod.fst) ⟨false, [], [], []⟩).errors = [] := hnil
    have hfuel : unvisited (buildEdges rels) [] < (nodesOf (buildEdges rels)).length + 1 := by
      have hle := List.length_filter_le
        (fun x => decide (x ∉ ([] : List String))) (nodesOf (buildEdges rels))
      unfold unvisited
      omega
    obtain ⟨hFIfin, hkeys⟩ := dfsAll_complete (buildEdges rels)
      ((nodesOf (buildEdges rels)).length + 1) ((buildEdges rels).map Prod.fst)
      ⟨false, [], [], []⟩ hfuel rfl (FInv_init (buildEdges rels)) rfl hnil'
    obtain ⟨-, L, -, hiff, hdesc⟩ := hFIfin
    have hmem : ∀ x ∈ l, x ∈ L := by
      intro x hx
      obtain ⟨y, hy⟩ := cycle_nodes_have_out (buildEdges rels) hlen hhl hchain x hx
      have hxv := hkeys x (hasEdgeB_mem_keys (buildEdges rels) hy)
      exact (hiff x).mp ⟨hxv, List.not_mem_nil x⟩
    cases l with
    | nil => simp at hlen
    | cons a t =>
      have hga : (a :: t).getLast? = some a := by
        rw [← hhl]
        rfl
      have hrank := chain_rank (buildEdges rels) L hdesc t a a hchain
        (hmem a (by simp)) hga
      have ht : 1 ≤ t.length := by
        rw [List.length_cons] at hlen
        omega
      omega

lemma buildEdges_nil : ∀ (rels : List RelEntry),
    (∀ r ∈ rels, isOwnershipEdge r = false) → buildEdges rels = [] := by
  intro rels
  induction rels with
  | nil => exact fun _ => rfl
  | cons r t ih =>
    intro h
    unfold buildEdges
    simp only [List.foldl_cons]
    rw [if_neg (by rw [h r (by simp)]; exact Bool.false_ne_true)]
    exact ih (fun r' hr' => h r' (List.mem_cons_of_mem r hr'))

lemma validateRelationships_no_ownership {rels : List RelEntry}
    (h : ∀ r ∈ rels, isOwnershipEdge r = false) : validateRelationships rels = [] := by
  have hb := buildEdges_nil rels h
  show (dfsAll (buildEdges rels) ((nodesOf (buildEdges rels)).length + 1)
    ((buildEdges rels).map Prod.fst) ⟨false, [], [], []⟩).errors = []
  rw [hb]
  rfl

/-- C2 (amended): cycle detection considers exactly the ownership
edges — one-to-one / one-to-many relations with `isParent = true`
between distinct non-empty names.  `validateRelationships` reports at
least one error exactly when the ownership edge map contains a
directed cycle, and a relation list with no ownership edges (for
example, only many-to-many edges, or only `isParent = false` edges)
never produces an error.  The original claim's stronger promise that
every ownership cycle is reported with its full cycle path fails:
see the counterexample, where a second cycle sharing a node with an
already-reported one is reported with a truncated path, because the
early `return true` of the node-level DFS skips the recursion-stack
cleanup. -/
theorem C2_ownership_cycle_detection :
    (∀ rels : List RelEntry,
      validateRelationships rels ≠ [] ↔ CycleIn (buildEdges rels)) ∧
    (∀ rels : List RelEntry, (∀ r ∈ rels, isOwnershipEdge r = false) →
      validateRelationships rels = []) :=
  ⟨validateRelationships_ne_nil_iff, fun _ h => validateRelationships_no_ownership h⟩

/-- C2 counterexample: two ownership cycles share the node `A`.  The
first (`A → B → A`) is reported with its full path, but the second
(`A → C → A`, equally a chain of ownership edges closing on itself) is
reported as the truncated path `C → A`; neither rotation of its full
cycle path appears in the output. -/
theorem C2_counterexample :
    validateRelationships
        [⟨"A", Cardinality.oneToOne, true, "B"⟩, ⟨"B", Cardinality.oneToOne, true, "A"⟩,
         ⟨"A", Cardinality.oneToOne, true, "C"⟩, ⟨"C", Cardinality.oneToOne, true, "A"⟩]
      = [cycleMsg ["A", "B", "A"], cycleMsg ["C", "A"]] ∧
    chainB (buildEdges
        [⟨"A", Cardinality.oneToOne, true, "B"⟩, ⟨"B", Cardinality.oneToOne, true, "A"⟩,
         ⟨"A", Cardinality.oneToOne, true, "C"⟩, ⟨"C", Cardinality.oneToOne, true, "A"⟩])
      ["A", "C", "A"] = true ∧
    cycleMsg ["A", "C", "A"] ∉ validateRelationships
        [⟨"A", Cardinality.oneToOne, true, "B"⟩, ⟨"B", Cardinality.oneToOne, true, "A"⟩,
         ⟨"A", Cardinality.oneToOne, true, "C"⟩, ⟨"C", Cardinality.oneToOne, true, "A"⟩] ∧
    cycleMsg ["C", "A", "C"] ∉ validateRelationships
        [⟨"A", Cardinality.oneToOne, true, "B"⟩, ⟨"B", Cardinality.oneToOne, true, "A"⟩,
         ⟨"A", Cardinality.oneToOne, true, "C"⟩, ⟨"C", Cardinality.oneToOne, true, "A"⟩] := by
  decide

/-- C2 witness: the amended theorem applied at a two-node ownership
cycle (an error is reported) and at a two-node many-to-many cycle (no
error is reported). -/
theorem C2_ownership_cycle_detection_witness :
    validateRelationships
        [⟨"A", Cardinality.oneToOne, true, "B"⟩,
         ⟨"B", Cardinality.oneToOne, true, "A"⟩] ≠ [] ∧
    validateRelationships
        [⟨"A", Cardinality.manyToMany, true, "B"⟩,
         ⟨"B", Cardinality.manyToMany, true, "A"⟩] = [] :=
  ⟨(C2_ownership_cycle_detection.1 _).mpr
      ⟨["A", "B", "A"], by decide, by decide, by decide⟩,
    C2_ownership_cycle_detection.2 _ (by decide)⟩

end NodePilot
